import Mathlib

/-!
Verification of the transaction deduplication and categorization engine of the
automated expense tracker.

The ledger store (`save_to_db`, `load_from_db`), the categorizer
(`categorize_transactions`), the keyword-learning step of the category editor
(`learn`), and the recurring-subscription auto-record block are embedded as
executable Lean definitions, translated from the Python source
(`main.py`, `utils.py`, `pages/03_Settings.py`, `pages/03_Configuration.py`).
Dates, descriptions, currencies and source tags are modelled as strings,
amounts as rationals (Python converts both sides of every key comparison
through `float`, so one numeric type suffices).
-/

namespace ExpenseTracker

/-- A stored transaction row: the five canonical columns of the
`transactions` table. -/
structure Row where
  date : String
  description : String
  amount : ℚ
  currency : String
  source : String
deriving DecidableEq, Repr

instance : Inhabited Row := ⟨⟨"", "", 0, "", ""⟩⟩

/-- A candidate row as handed to `save_to_db`: the data frame columns
`Date`, `Description`, `Amount`, `Currency`.  The `Source` column of the
store is supplied separately as the `source_name` argument. -/
structure Cand where
  date : String
  description : String
  amount : ℚ
  currency : String
deriving DecidableEq, Repr

/-- Identity key of a stored row, as built from the fetched `existing` rows in
`save_to_db`: the tuple `(date, description, float(amount), currency, source)`. -/
def Row.key (r : Row) : String × String × ℚ × String × String :=
  (r.date, r.description, r.amount, r.currency, r.source)

/-- Identity key of a candidate, built with the passed `source_name` as the
fifth component. -/
def Cand.key (c : Cand) (source_name : String) : String × String × ℚ × String × String :=
  (c.date, c.description, c.amount, c.currency, source_name)

/-- The row actually inserted for a candidate: its four columns plus the
passed `source_name`. -/
def Cand.toRow (c : Cand) (source_name : String) : Row :=
  ⟨c.date, c.description, c.amount, c.currency, source_name⟩

/-- Forget the `Source` column of a row (`group.drop(columns=["Source"])`). -/
def Row.toCand (r : Row) : Cand :=
  ⟨r.date, r.description, r.amount, r.currency⟩

/-- `save_to_db(df, source_name)` from `main.py`: fetch the identity keys of
all stored rows, walk the candidate frame appending every row whose key is
not in that set to `to_insert`, bulk-insert `to_insert`, and return the
number of rows inserted.  The result is the new store contents paired with
the returned count. -/
def save_to_db (store : List Row) (df : List Cand) (source_name : String) :
    List Row × ℕ :=
  let existing_set := store.map Row.key
  let to_insert := df.foldl
    (fun acc c => if c.key source_name ∈ existing_set then acc
                  else acc ++ [c.toRow source_name]) []
  if to_insert = [] then (store, 0)
  else (store ++ to_insert, to_insert.length)

/-- The candidates of a batch whose identity key is absent from the store. -/
def newCands (store : List Row) (df : List Cand) (source_name : String) : List Cand :=
  df.filter (fun c => decide (c.key source_name ∉ store.map Row.key))

theorem Row.key_toRow (c : Cand) (s : String) : (c.toRow s).key = c.key s := rfl

theorem Row.key_injective (r r' : Row) (h : r.key = r'.key) : r = r' := by
  cases r; cases r'
  simp only [Row.key, Prod.mk.injEq] at h
  simp [h.1, h.2.1, h.2.2.1, h.2.2.2.1, h.2.2.2.2]

theorem save_to_db_foldl (store : List Row) (df : List Cand) (s : String)
    (acc : List Row) :
    df.foldl (fun acc c => if c.key s ∈ store.map Row.key then acc
                           else acc ++ [c.toRow s]) acc
      = acc ++ (newCands store df s).map (fun c => c.toRow s) := by
  induction df generalizing acc with
  | nil => simp [newCands]
  | cons c df ih =>
    by_cases h : c.key s ∈ store.map Row.key
    · rw [List.foldl_cons, if_pos h, ih]
      have h2 : ∃ x ∈ store, x.key = c.key s := by simpa [List.mem_map] using h
      have hc : newCands store (c :: df) s = newCands store df s := by
        simp [newCands, List.filter_cons, h2]
      rw [hc]
    · rw [List.foldl_cons, if_neg h, ih]
      have h2 : ∀ x ∈ store, ¬x.key = c.key s := by simpa [List.mem_map] using h
      have hc : newCands store (c :: df) s = c :: newCands store df s := by
        simp [newCands, List.filter_cons]
        exact h2
      rw [hc, List.map_cons]
      simp

/-- Closed form of `save_to_db`: the store is extended by exactly the
candidates whose key was unseen, and the count is their number. -/
theorem save_to_db_eq (store : List Row) (df : List Cand) (s : String) :
    save_to_db store df s
      = (store ++ (newCands store df s).map (fun c => c.toRow s),
         (newCands store df s).length) := by
  simp only [save_to_db]
  rw [save_to_db_foldl store df s [], List.nil_append]
  by_cases h : newCands store df s = []
  · simp [h]
  · have h2 : (newCands store df s).map (fun c => c.toRow s) ≠ [] := by
      simpa using h
    rw [if_neg h2]
    simp

theorem mem_newCands (store : List Row) (df : List Cand) (s : String) (c : Cand) :
    c ∈ newCands store df s ↔ c ∈ df ∧ c.key s ∉ store.map Row.key := by
  simp [newCands]

/-- Everything in the store before an insert is still there afterwards. -/
theorem save_to_db_mono (store : List Row) (df : List Cand) (s : String)
    (r : Row) (h : r ∈ store) : r ∈ (save_to_db store df s).1 := by
  rw [save_to_db_eq]
  exact List.mem_append_left _ h

/-- Every candidate of a batch ends up present (as a row with the passed
source) in the store after the insert. -/
theorem save_to_db_mem (store : List Row) (df : List Cand) (s : String)
    (c : Cand) (h : c ∈ df) : c.toRow s ∈ (save_to_db store df s).1 := by
  rw [save_to_db_eq]
  by_cases hk : c.key s ∈ store.map Row.key
  · obtain ⟨r, hr, hrk⟩ := List.mem_map.mp hk
    have : r = c.toRow s := Row.key_injective _ _ (hrk.trans (Row.key_toRow c s).symm)
    exact List.mem_append_left _ (this ▸ hr)
  · exact List.mem_append_right _
      (List.mem_map_of_mem _ ((mem_newCands store df s c).mpr ⟨h, hk⟩))

/-- A candidate whose key is already stored is skipped: the store and the
count are unchanged. -/
theorem save_to_db_skip (store : List Row) (c : Cand) (s : String)
    (h : c.toRow s ∈ store) : save_to_db store [c] s = (store, 0) := by
  have hk : c.key s ∈ store.map Row.key := by
    have := List.mem_map_of_mem Row.key h
    rwa [Row.key_toRow] at this
  have h2 : ∃ x ∈ store, x.key = c.key s := by simpa [List.mem_map] using hk
  have h0 : newCands store [c] s = [] := by
    simp [newCands, List.filter_cons, h2]
  rw [save_to_db_eq, h0]
  simp

/-- A candidate whose key is unseen is inserted. -/
theorem save_to_db_ins (store : List Row) (c : Cand) (s : String)
    (h : c.key s ∉ store.map Row.key) :
    save_to_db store [c] s = (store ++ [c.toRow s], 1) := by
  have h2 : ∀ x ∈ store, ¬x.key = c.key s := by simpa [List.mem_map] using h
  have h1 : newCands store [c] s = [c] := by
    simp [newCands, List.filter_cons]
    exact h2
  rw [save_to_db_eq, h1]
  simp

/-- First insert into an empty store takes every candidate. -/
theorem save_to_db_empty (A : List Cand) (s : String) :
    save_to_db [] A s = (A.map (fun c => c.toRow s), A.length) := by
  have h : newCands [] A s = A := by
    simp [newCands]
  rw [save_to_db_eq, h]
  simp

theorem map_key_toRow (A : List Cand) (s : String) :
    (A.map (fun c => c.toRow s)).map Row.key = A.map (fun c => c.key s) := by
  rw [List.map_map]
  rfl

/-- C1.  `save_to_db` fetches the stored identity keys, inserts exactly the
candidates whose key (with the passed source name as fifth component) is
unseen, and returns the count of rows inserted; an exact five-field match is
never re-inserted while changing any single one of the five fields makes the
candidate insertable. -/
theorem claim_save_to_db_dedup :
    (∀ (store : List Row) (df : List Cand) (s : String),
        (save_to_db store df s).1
            = store ++ (df.filter
                (fun c => decide (c.key s ∉ store.map Row.key))).map
                (fun c => c.toRow s)
          ∧ (save_to_db store df s).2
            = (df.filter (fun c => decide (c.key s ∉ store.map Row.key))).length)
    ∧ (∀ (store : List Row) (c : Cand) (s : String),
        c.toRow s ∈ store → save_to_db store [c] s = (store, 0))
    ∧ (∀ (c : Cand) (s d : String), d ≠ c.date →
        save_to_db [c.toRow s] [{ c with date := d }] s
          = ([c.toRow s, ({ c with date := d } : Cand).toRow s], 1))
    ∧ (∀ (c : Cand) (s d : String), d ≠ c.description →
        save_to_db [c.toRow s] [{ c with description := d }] s
          = ([c.toRow s, ({ c with description := d } : Cand).toRow s], 1))
    ∧ (∀ (c : Cand) (s : String) (a : ℚ), a ≠ c.amount →
        save_to_db [c.toRow s] [{ c with amount := a }] s
          = ([c.toRow s, ({ c with amount := a } : Cand).toRow s], 1))
    ∧ (∀ (c : Cand) (s d : String), d ≠ c.currency →
        save_to_db [c.toRow s] [{ c with currency := d }] s
          = ([c.toRow s, ({ c with currency := d } : Cand).toRow s], 1))
    ∧ (∀ (c : Cand) (s s2 : String), s2 ≠ s →
        save_to_db [c.toRow s] [c] s2
          = ([c.toRow s, c.toRow s2], 1)) := by
  refine ⟨fun store df s => ⟨?_, ?_⟩, save_to_db_skip, ?_, ?_, ?_, ?_, ?_⟩
  · rw [save_to_db_eq]; rfl
  · rw [save_to_db_eq]; rfl
  · intro c s d hd
    have hk : ({ c with date := d } : Cand).key s
        ∉ ([c.toRow s] : List Row).map Row.key := by
      simp [Cand.key, Cand.toRow, Row.key, hd]
    simpa using save_to_db_ins [c.toRow s] { c with date := d } s hk
  · intro c s d hd
    have hk : ({ c with description := d } : Cand).key s
        ∉ ([c.toRow s] : List Row).map Row.key := by
      simp [Cand.key, Cand.toRow, Row.key, hd]
    simpa using save_to_db_ins [c.toRow s] { c with description := d } s hk
  · intro c s a ha
    have hk : ({ c with amount := a } : Cand).key s
        ∉ ([c.toRow s] : List Row).map Row.key := by
      simp [Cand.key, Cand.toRow, Row.key, ha]
    simpa using save_to_db_ins [c.toRow s] { c with amount := a } s hk
  · intro c s d hd
    have hk : ({ c with currency := d } : Cand).key s
        ∉ ([c.toRow s] : List Row).map Row.key := by
      simp [Cand.key, Cand.toRow, Row.key, hd]
    simpa using save_to_db_ins [c.toRow s] { c with currency := d } s hk
  · intro c s s2 hs
    have hk : c.key s2 ∉ ([c.toRow s] : List Row).map Row.key := by
      simp [Cand.key, Cand.toRow, Row.key, hs]
    simpa using save_to_db_ins [c.toRow s] c s2 hk

/-- Witness for C1: a stored row is skipped on re-insert at a concrete input. -/
theorem claim_save_to_db_dedup_witness :
    save_to_db [Cand.toRow ⟨"2024-01-01", "COFFEE", 5, "SGD"⟩ "stmt.pdf"]
        [⟨"2024-01-01", "COFFEE", 5, "SGD"⟩] "stmt.pdf"
      = ([Cand.toRow ⟨"2024-01-01", "COFFEE", 5, "SGD"⟩ "stmt.pdf"], 0) :=
  claim_save_to_db_dedup.2.1 _ ⟨"2024-01-01", "COFFEE", 5, "SGD"⟩ "stmt.pdf"
    (by simp)

/-- C3.  Disjoint batches accumulate; re-inserting the same batch is
idempotent, with the second call returning 0. -/
theorem claim_insert_disjoint_idempotent :
    (∀ (A B : List Cand) (sA sB : String),
        (A.map (fun c => c.key sA)).Nodup →
        (B.map (fun c => c.key sB)).Nodup →
        (∀ k ∈ A.map (fun c => c.key sA), k ∉ B.map (fun c => c.key sB)) →
        (save_to_db (save_to_db [] A sA).1 B sB).1.length
          = A.length + B.length)
    ∧ (∀ (A : List Cand) (s : String),
        (A.map (fun c => c.key s)).Nodup →
        (save_to_db (save_to_db [] A s).1 A s).1.length = A.length
          ∧ (save_to_db (save_to_db [] A s).1 A s).2 = 0) := by
  constructor
  · intro A B sA sB _ _ hdisj
    rw [save_to_db_empty]
    have hkeys : ((A.map (fun c => c.toRow sA)).map Row.key)
        = A.map (fun c => c.key sA) := map_key_toRow A sA
    have hB : newCands (A.map (fun c => c.toRow sA)) B sB = B := by
      apply List.filter_eq_self.mpr
      intro c hc
      rw [decide_eq_true_iff, hkeys]
      intro hmem
      exact hdisj _ hmem (List.mem_map_of_mem _ hc)
    rw [save_to_db_eq, hB]
    simp
  · intro A s _
    have hkeys : ((A.map (fun c => c.toRow s)).map Row.key)
        = A.map (fun c => c.key s) := map_key_toRow A s
    have hA : newCands (A.map (fun c => c.toRow s)) A s = [] := by
      apply List.filter_eq_nil_iff.mpr
      intro c hc
      rw [decide_eq_true_iff, hkeys]
      intro hmem
      exact hmem (List.mem_map_of_mem _ hc)
    rw [save_to_db_empty, save_to_db_eq, hA]
    simp

/-- Witness for C3 at a concrete pair of key-disjoint singleton batches. -/
theorem claim_insert_disjoint_idempotent_witness :
    (save_to_db (save_to_db [] [(⟨"2024-01-01", "A", 1, "SGD"⟩ : Cand)] "s1").1
        [(⟨"2024-01-02", "B", 2, "SGD"⟩ : Cand)] "s2").1.length = 1 + 1 :=
  claim_insert_disjoint_idempotent.1
    [⟨"2024-01-01", "A", 1, "SGD"⟩] [⟨"2024-01-02", "B", 2, "SGD"⟩] "s1" "s2"
    (by decide) (by decide) (by decide)

/-- C5.  Within one call candidates are deduplicated only against the
persisted key set as it existed at the start of the call: two candidates of
one batch with equal keys, neither stored, are both inserted. -/
theorem claim_no_read_after_write :
    ∀ (store : List Row) (c : Cand) (s : String),
      c.key s ∉ store.map Row.key →
      save_to_db store [c, c] s = (store ++ [c.toRow s, c.toRow s], 2) := by
  intro store c s h
  have h2 : ∀ x ∈ store, ¬x.key = c.key s := by simpa [List.mem_map] using h
  have h1 : newCands store [c, c] s = [c, c] := by
    apply List.filter_eq_self.mpr
    intro x hx
    rw [decide_eq_true_iff]
    rcases List.mem_pair.mp hx with rfl | rfl <;>
      simpa [List.mem_map] using h2
  rw [save_to_db_eq, h1]
  simp

/-- Witness for C5: a duplicated candidate pair is inserted twice into an
empty store. -/
theorem claim_no_read_after_write_witness :
    save_to_db [] [(⟨"2024-01-01", "A", 1, "SGD"⟩ : Cand),
        (⟨"2024-01-01", "A", 1, "SGD"⟩ : Cand)] "s1"
      = ([Cand.toRow ⟨"2024-01-01", "A", 1, "SGD"⟩ "s1",
          Cand.toRow ⟨"2024-01-01", "A", 1, "SGD"⟩ "s1"], 2) := by
  have h := claim_no_read_after_write [] ⟨"2024-01-01", "A", 1, "SGD"⟩ "s1"
    (by simp)
  simpa using h

/-! ### Categorizer (`categorize_transactions` from `main.py`) -/

/-- Strip leading and trailing whitespace from a character list
(Python `.strip()`). -/
def stripChars (l : List Char) : List Char :=
  ((l.dropWhile Char.isWhitespace).reverse.dropWhile Char.isWhitespace).reverse

/-- The normalization both sides of a keyword comparison go through:
`.lower().strip()` in the source. -/
def normalizeDesc (s : String) : String := ⟨stripChars (s.data.map Char.toLower)⟩

/-- A categorized row: the five base columns plus the derived `Category`
column. -/
structure CRow where
  base : Row
  category : String
deriving DecidableEq, Repr

instance : Inhabited CRow := ⟨⟨default, ""⟩⟩

/-- One iteration of the category loop on the whole frame: skip the
reserved category and empty keyword lists, otherwise overwrite `Category`
for every row whose normalized description is in the normalized keyword
list. -/
def applyCategory (rows : List CRow) (cat : String) (kws : List String) :
    List CRow :=
  if cat = "Uncategorized" ∨ kws = [] then rows
  else rows.map (fun r =>
    if normalizeDesc r.base.description ∈ kws.map normalizeDesc
    then { r with category := cat } else r)

/-- `categorize_transactions(df)`: default every row to `"Uncategorized"`,
then run the category loop over the session categories in order. -/
def categorize_transactions (cats : List (String × List String))
    (rows : List CRow) : List CRow :=
  cats.foldl (fun acc p => applyCategory acc p.1 p.2)
    (rows.map (fun r => { r with category := "Uncategorized" }))

/-- The per-description effect of one category-loop iteration. -/
def catStep (d : String) (acc : String) (p : String × List String) : String :=
  if p.1 = "Uncategorized" ∨ p.2 = [] then acc
  else if normalizeDesc d ∈ p.2.map normalizeDesc then p.1 else acc

/-- The category the loop assigns to a description, starting from `c0`. -/
def catOfDesc (cats : List (String × List String)) (d : String) (c0 : String) :
    String :=
  cats.foldl (catStep d) c0

/-- A category entry that (effectively) matches description `d`: it is not
the skipped reserved name and the normalized description is among its
normalized keywords. -/
def matchesDesc (d : String) (p : String × List String) : Prop :=
  p.1 ≠ "Uncategorized" ∧ normalizeDesc d ∈ p.2.map normalizeDesc

instance (d : String) (p : String × List String) : Decidable (matchesDesc d p) := by
  unfold matchesDesc
  infer_instance

theorem catStep_eq (d : String) (acc : String) (p : String × List String) :
    catStep d acc p = if matchesDesc d p then p.1 else acc := by
  by_cases h1 : p.1 = "Uncategorized"
  · simp [catStep, matchesDesc, h1]
  · by_cases h2 : p.2 = []
    · simp [catStep, matchesDesc, h1, h2]
    · by_cases h3 : normalizeDesc d ∈ p.2.map normalizeDesc
      · simp [catStep, matchesDesc, h1, h2, h3]
      · simp [catStep, matchesDesc, h1, h2, h3]

theorem crow_eta (r : CRow) : ({ r with category := r.category } : CRow) = r := rfl

theorem applyCategory_eq_map (rows : List CRow) (cat : String)
    (kws : List String) :
    applyCategory rows cat kws
      = rows.map (fun r =>
          { r with category := catStep r.base.description r.category (cat, kws) }) := by
  by_cases h : cat = "Uncategorized" ∨ kws = []
  · rw [applyCategory, if_pos h]
    have : ∀ r : CRow,
        ({ r with category := catStep r.base.description r.category (cat, kws) } : CRow)
          = r := by
      intro r
      rw [catStep, if_pos h]
    conv_lhs => rw [← List.map_id rows]
    exact List.map_congr_left (fun r _ => (this r).symm)
  · rw [applyCategory, if_neg h]
    apply List.map_congr_left
    intro r _
    rw [catStep, if_neg h]
    by_cases h3 : normalizeDesc r.base.description ∈ kws.map normalizeDesc
    · rw [if_pos h3, if_pos h3]
    · rw [if_neg h3, if_neg h3]

theorem foldl_applyCategory (cats : List (String × List String))
    (rows : List CRow) :
    cats.foldl (fun acc p => applyCategory acc p.1 p.2) rows
      = rows.map (fun r =>
          { r with category := catOfDesc cats r.base.description r.category }) := by
  induction cats generalizing rows with
  | nil =>
    simp only [List.foldl_nil, catOfDesc]
    conv_lhs => rw [← List.map_id rows]
    exact List.map_congr_left (fun r _ => rfl)
  | cons p cats ih =>
    rw [List.foldl_cons, applyCategory_eq_map, ih, List.map_map]
    apply List.map_congr_left
    intro r _
    rfl

/-- `categorize_transactions` acts pointwise: each row gets the category the
loop computes for its description starting from `"Uncategorized"`. -/
theorem categorize_eq_map (cats : List (String × List String))
    (rows : List CRow) :
    categorize_transactions cats rows
      = rows.map (fun r =>
          { r with category := catOfDesc cats r.base.description "Uncategorized" }) := by
  rw [categorize_transactions, foldl_applyCategory, List.map_map]
  rfl

/-- If no category entry matches, the loop leaves the initial value. -/
theorem catOfDesc_no_match (cats : List (String × List String)) (d c0 : String)
    (h : ∀ p ∈ cats, ¬ matchesDesc d p) : catOfDesc cats d c0 = c0 := by
  induction cats generalizing c0 with
  | nil => rfl
  | cons p cats ih =>
    rw [catOfDesc, List.foldl_cons, catStep_eq,
      if_neg (h p (List.mem_cons_self p cats))]
    exact ih c0 (fun q hq => h q (List.mem_cons_of_mem p hq))

/-- If some entry matches, the loop returns the name of a matching entry. -/
theorem catOfDesc_of_match (cats : List (String × List String)) (d c0 : String)
    (h : ∃ p ∈ cats, matchesDesc d p) :
    ∃ p ∈ cats, matchesDesc d p ∧ catOfDesc cats d c0 = p.1 := by
  induction cats generalizing c0 with
  | nil => obtain ⟨p, hp, _⟩ := h; exact absurd hp (List.not_mem_nil p)
  | cons p cats ih =>
    by_cases hrest : ∃ q ∈ cats, matchesDesc d q
    · obtain ⟨q, hq, hmq, hres⟩ := ih (catStep d c0 p) hrest
      exact ⟨q, List.mem_cons_of_mem p hq, hmq, hres⟩
    · have hp : matchesDesc d p := by
        obtain ⟨q, hq, hmq⟩ := h
        rcases List.mem_cons.mp hq with rfl | hq2
        · exact hmq
        · exact absurd ⟨q, hq2, hmq⟩ hrest
      refine ⟨p, List.mem_cons_self p cats, hp, ?_⟩
      rw [catOfDesc, List.foldl_cons, catStep_eq, if_pos hp]
      have hnone : ∀ q ∈ cats, ¬ matchesDesc d q := by
        intro q hq hmq
        exact hrest ⟨q, hq, hmq⟩
      exact catOfDesc_no_match cats d p.1 hnone

/-- If every matching entry carries the name `C` and one matches, the loop
returns `C`. -/
theorem catOfDesc_all_named (cats : List (String × List String)) (d c0 C : String)
    (hex : ∃ p ∈ cats, matchesDesc d p)
    (hall : ∀ p ∈ cats, matchesDesc d p → p.1 = C) :
    catOfDesc cats d c0 = C := by
  obtain ⟨p, hp, hmp, hres⟩ := catOfDesc_of_match cats d c0 hex
  rw [hres]
  exact hall p hp hmp

/-! ### Keyword learning (`Apply Changes` handler of the category editor) -/

/-- Python `categories.get(C, [])` on the session dict, modelled as an
association list in insertion order. -/
def dictGet (cats : List (String × List String)) (C : String) : List String :=
  match cats.find? (fun p => p.1 == C) with
  | some p => p.2
  | none => []

/-- Python `categories.setdefault(C, []).append(D)`: extend the first entry
named `C`, or append a fresh entry `(C, [D])` at the end of the dict. -/
def setdefaultAppend : List (String × List String) → String → String →
    List (String × List String)
  | [], C, D => [(C, [D])]
  | p :: rest, C, D =>
      if p.1 = C then (p.1, p.2 ++ [D]) :: rest
      else p :: setdefaultAppend rest C D

/-- The learning step of the editor handler: append the raw description `D`
as a new keyword under category `C`, skipping the append when `D` is already
present in `C`'s keyword list. -/
def learn (cats : List (String × List String)) (D C : String) :
    List (String × List String) :=
  if D ∈ dictGet cats C then cats else setdefaultAppend cats C D

theorem setdefaultAppend_gains (cats : List (String × List String))
    (C D : String) :
    ∃ kws, (C, kws) ∈ setdefaultAppend cats C D ∧ D ∈ kws := by
  induction cats with
  | nil => exact ⟨[D], List.mem_singleton.mpr rfl, List.mem_singleton.mpr rfl⟩
  | cons p rest ih =>
    by_cases hp : p.1 = C
    · refine ⟨p.2 ++ [D], ?_, List.mem_append_right _ (List.mem_singleton.mpr rfl)⟩
      rw [setdefaultAppend, if_pos hp, hp]
      exact List.mem_cons_self _ _
    · obtain ⟨kws, hmem, hD⟩ := ih
      refine ⟨kws, ?_, hD⟩
      rw [setdefaultAppend, if_neg hp]
      exact List.mem_cons_of_mem p hmem

theorem mem_setdefaultAppend (cats : List (String × List String))
    (C D : String) (q : String × List String)
    (h : q ∈ setdefaultAppend cats C D) : q.1 = C ∨ q ∈ cats := by
  induction cats with
  | nil =>
    rw [setdefaultAppend] at h
    rcases List.mem_singleton.mp h with rfl
    exact Or.inl rfl
  | cons p rest ih =>
    by_cases hp : p.1 = C
    · rw [setdefaultAppend, if_pos hp] at h
      rcases List.mem_cons.mp h with rfl | h2
      · exact Or.inl hp
      · exact Or.inr (List.mem_cons_of_mem p h2)
    · rw [setdefaultAppend, if_neg hp] at h
      rcases List.mem_cons.mp h with rfl | h2
      · exact Or.inr (List.mem_cons_self _ _)
      · rcases ih h2 with hC | hmem
        · exact Or.inl hC
        · exact Or.inr (List.mem_cons_of_mem p hmem)

theorem learn_gains (cats : List (String × List String)) (D C : String) :
    ∃ kws, (C, kws) ∈ learn cats D C ∧ D ∈ kws := by
  by_cases h : D ∈ dictGet cats C
  · rw [learn, if_pos h]
    cases hf : cats.find? (fun p => p.1 == C) with
    | none =>
      rw [dictGet, hf] at h
      exact absurd h (List.not_mem_nil D)
    | some p =>
      have hp1 : p.1 = C := by
        have := List.find?_some hf
        simpa using this
      have hpm : p ∈ cats := List.mem_of_find?_eq_some hf
      rw [dictGet, hf] at h
      refine ⟨p.2, ?_, h⟩
      rw [← hp1, Prod.mk.eta]
      exact hpm
  · rw [learn, if_neg h]
    exact setdefaultAppend_gains cats C D

theorem mem_learn (cats : List (String × List String)) (D C : String)
    (q : String × List String) (h : q ∈ learn cats D C) :
    q.1 = C ∨ q ∈ cats := by
  by_cases hD : D ∈ dictGet cats C
  · rw [learn, if_pos hD] at h
    exact Or.inr h
  · rw [learn, if_neg hD] at h
    exact mem_setdefaultAppend cats C D q h

/-- C4 (amended).  `learn(D, C)` followed by `categorize` on a transaction
with description `D` yields `C`, provided `D`'s normalized form is not a
keyword of any category other than `C`.  (For the reserved name the learned
keyword is skipped, but the default assignment still delivers it.) -/
theorem claim_learn_roundtrip :
    ∀ (cats : List (String × List String)) (D C : String) (r : CRow),
      (∀ p ∈ cats, p.1 ≠ C → normalizeDesc D ∉ p.2.map normalizeDesc) →
      r.base.description = D →
      (categorize_transactions (learn cats D C) [r]).map CRow.category = [C] := by
  intro cats D C r hother hdesc
  rw [categorize_eq_map]
  simp only [List.map_cons, List.map_nil]
  have hval : catOfDesc (learn cats D C) D "Uncategorized" = C := by
    by_cases hC : C = "Uncategorized"
    · subst hC
      apply catOfDesc_no_match
      intro q hq hmq
      rcases mem_learn cats D "Uncategorized" q hq with hC1 | hmemq
      · exact hmq.1 hC1
      · by_cases hq1 : q.1 = "Uncategorized"
        · exact hmq.1 hq1
        · exact hother q hmemq hq1 hmq.2
    · obtain ⟨kws, hmem, hD⟩ := learn_gains cats D C
      apply catOfDesc_all_named (learn cats D C) D _ C
      · exact ⟨(C, kws), hmem, hC, List.mem_map_of_mem normalizeDesc hD⟩
      · intro q hq hmq
        by_cases hq1 : q.1 = C
        · exact hq1
        · rcases mem_learn cats D C q hq with hC1 | hmemq
          · exact hC1
          · exact absurd hmq.2 (hother q hmemq hq1)
  rw [hdesc, hval]

/-- Witness for C4 (amended) at a concrete category dict. -/
theorem claim_learn_roundtrip_witness :
    (categorize_transactions (learn [("Travel", ["y"])] "x" "Food")
        [⟨⟨"2024-01-01", "x", 1, "SGD", "s"⟩, ""⟩]).map CRow.category
      = ["Food"] :=
  claim_learn_roundtrip [("Travel", ["y"])] "x" "Food"
    ⟨⟨"2024-01-01", "x", 1, "SGD", "s"⟩, ""⟩ (by decide) rfl

/-- Counterexample to C4 as stated: after learning "x" under "Food", a later
category "Travel" also holding keyword "x" wins the categorization, so the
round trip does not yield "Food". -/
theorem claim_learn_roundtrip_cex :
    (categorize_transactions (learn [("Food", []), ("Travel", ["x"])] "x" "Food")
        [⟨⟨"2024-01-01", "x", 1, "SGD", "s"⟩, ""⟩]).map CRow.category
        = ["Travel"]
    ∧ "Travel" ≠ "Food" := by decide

/-- C8.  When a description matches keyword sets of two different categories,
the last matching category in iteration order wins. -/
theorem claim_last_writer_wins :
    ∀ (l1 l2 l3 : List (String × List String)) (c1 c2 : String)
      (k1 k2 : List String) (r : CRow),
      c1 ≠ "Uncategorized" → c2 ≠ "Uncategorized" → c1 ≠ c2 →
      normalizeDesc r.base.description ∈ k1.map normalizeDesc →
      normalizeDesc r.base.description ∈ k2.map normalizeDesc →
      (∀ p ∈ l3, ¬ matchesDesc r.base.description p) →
      (categorize_transactions (l1 ++ (c1, k1) :: l2 ++ (c2, k2) :: l3) [r]).map
          CRow.category = [c2] := by
  intro l1 l2 l3 c1 c2 k1 k2 r h1 h2 hne hk1 hk2 h3
  rw [categorize_eq_map]
  simp only [List.map_cons, List.map_nil]
  have hsplit : l1 ++ (c1, k1) :: l2 ++ (c2, k2) :: l3
      = (l1 ++ (c1, k1) :: l2) ++ ((c2, k2) :: l3) := by
    simp
  have hm2 : matchesDesc r.base.description (c2, k2) := ⟨h2, hk2⟩
  have hval : catOfDesc (l1 ++ (c1, k1) :: l2 ++ (c2, k2) :: l3)
      r.base.description "Uncategorized" = c2 := by
    rw [hsplit, catOfDesc, List.foldl_append, List.foldl_cons, catStep_eq,
      if_pos hm2]
    exact catOfDesc_no_match l3 r.base.description c2 h3
  rw [hval]

/-- Witness for C8 at two concrete overlapping categories. -/
theorem claim_last_writer_wins_witness :
    (categorize_transactions
        ([] ++ ("Food", ["a"]) :: [] ++ ("Travel", ["a"]) :: [])
        [⟨⟨"2024-01-01", "a", 1, "SGD", "s"⟩, ""⟩]).map CRow.category
      = ["Travel"] :=
  claim_last_writer_wins [] [] [] "Food" "Travel" ["a"] ["a"]
    ⟨⟨"2024-01-01", "a", 1, "SGD", "s"⟩, ""⟩
    (by decide) (by decide) (by decide) (by decide) (by decide)
    (by intro p hp; exact absurd hp (List.not_mem_nil p))

/-- C10.  `categorize_transactions` preserves the ledger apart from the
derived `Category` column: same rows in the same order with the five base
fields unchanged. -/
theorem claim_categorize_frame :
    ∀ (cats : List (String × List String)) (rows : List CRow),
      (categorize_transactions cats rows).map CRow.base = rows.map CRow.base
      ∧ (categorize_transactions cats rows).length = rows.length := by
  intro cats rows
  constructor
  · rw [categorize_eq_map, List.map_map]
    rfl
  · rw [categorize_eq_map, List.length_map]

theorem getD_map_crow (f : CRow → CRow) (rows : List CRow) (i : ℕ)
    (h : i < rows.length) :
    (rows.map f).getD i default = f (rows.getD i default) := by
  induction rows generalizing i with
  | nil => simp at h
  | cons r rows ih =>
    cases i with
    | zero => rfl
    | succ n =>
      simp only [List.map_cons, List.getD_cons_succ]
      exact ih n (by simpa using h)

/-- `categorize_transactions(df)` from `utils.py`: default every row to
`"Uncategorized"`, then for the rows whose raw `Description` is an index key
of the session keyword-to-category mapping (no trimming, no lower-casing),
overwrite `Category` with the mapped value.  The mapping is the flat series
built by `load_category_mapping`, modelled as an association list from raw
keyword text to category name. -/
def categorize_transactions_utils (mapping : List (String × String))
    (rows : List CRow) : List CRow :=
  rows.map (fun r =>
    if r.base.description ∈ mapping.map Prod.fst
    then { r with category :=
        ((mapping.find? (fun p => p.1 == r.base.description)).map
          Prod.snd).getD "Uncategorized" }
    else { r with category := "Uncategorized" })

theorem find_mapping_eq (mapping : List (String × String)) (k C : String)
    (hnd : (mapping.map Prod.fst).Nodup) (hmem : (k, C) ∈ mapping) :
    mapping.find? (fun p => p.1 == k) = some (k, C) := by
  induction mapping with
  | nil => exact absurd hmem (List.not_mem_nil _)
  | cons p rest ih =>
    rcases List.mem_cons.mp hmem with rfl | hmem2
    · exact @List.find?_cons_of_pos (String × String) (fun q => q.1 == k)
        (k, C) rest (by simp)
    · have hnd2 : (rest.map Prod.fst).Nodup := by
        rw [List.map_cons] at hnd
        exact (List.nodup_cons.mp hnd).2
      have hp1 : ¬(p.1 == k) = true := by
        intro hb
        have hpk : p.1 = k := by simpa using hb
        have hk : k ∈ rest.map Prod.fst := List.mem_map_of_mem Prod.fst hmem2
        rw [List.map_cons] at hnd
        exact (List.nodup_cons.mp hnd).1 (hpk ▸ hk)
      rw [@List.find?_cons_of_neg (String × String) (fun q => q.1 == k)
        p rest hp1]
      exact ih hnd2 hmem2

/-- Counterexample to C2 as stated: description "a" is a member of the
normalized keyword set of "Food", yet the categorizer assigns "Travel"
(the later matching category), so the if-and-only-if fails. -/
theorem claim_exact_match_iff_cex :
    normalizeDesc "a" ∈ (["a"].map normalizeDesc)
    ∧ (categorize_transactions [("Food", ["a"]), ("Travel", ["a"])]
        [⟨⟨"2024-01-01", "a", 1, "SGD", "s"⟩, ""⟩]).map CRow.category
        = ["Travel"]
    ∧ "Travel" ≠ "Food" := by decide

/-- C2 (amended).  For `main.py`'s categorizer: provided the normalized
keyword sets of distinct (non-reserved) categories are pairwise disjoint,
every transaction is assigned category `C` iff its normalized description is
a member of `C`'s normalized keyword set, and `"Uncategorized"` exactly when
no category matches.  For the `utils.py` variant there is no normalization:
the raw description is matched by exact string equality against the
keyword-to-category mapping — a row whose raw description is not an index
key stays `"Uncategorized"`, and a row whose raw description equals the key
of a mapping entry gets that entry's category. -/
theorem claim_exact_match_iff :
    (∀ (cats : List (String × List String)) (rows : List CRow) (i : ℕ)
      (C : String),
      (∀ p ∈ cats, ∀ q ∈ cats, p.1 ≠ "Uncategorized" → q.1 ≠ "Uncategorized" →
        p.1 ≠ q.1 → ∀ s ∈ p.2.map normalizeDesc, s ∉ q.2.map normalizeDesc) →
      i < rows.length →
      (((categorize_transactions cats rows).getD i default).category = C ↔
        ((C ≠ "Uncategorized" ∧ ∃ kws, (C, kws) ∈ cats ∧
            normalizeDesc ((rows.getD i default).base.description)
              ∈ kws.map normalizeDesc)
         ∨ (C = "Uncategorized" ∧
            ∀ p ∈ cats,
              ¬ matchesDesc ((rows.getD i default).base.description) p))))
    ∧ (∀ (mapping : List (String × String)) (rows : List CRow) (i : ℕ),
        i < rows.length →
        (rows.getD i default).base.description ∉ mapping.map Prod.fst →
        ((categorize_transactions_utils mapping rows).getD i default).category
          = "Uncategorized")
    ∧ (∀ (mapping : List (String × String)) (rows : List CRow) (i : ℕ)
        (k C : String),
        (mapping.map Prod.fst).Nodup → i < rows.length → (k, C) ∈ mapping →
        (rows.getD i default).base.description = k →
        ((categorize_transactions_utils mapping rows).getD i default).category
          = C) := by
  refine ⟨?_, ?_, ?_⟩
  · intro cats rows i C hdisj hi
    have hpoint : (categorize_transactions cats rows).getD i default
        = { rows.getD i default with
            category := catOfDesc cats (rows.getD i default).base.description
              "Uncategorized" } := by
      rw [categorize_eq_map]
      exact getD_map_crow _ rows i hi
    rw [hpoint]
    show catOfDesc cats (rows.getD i default).base.description "Uncategorized" = C ↔ _
    constructor
    · intro hres
      by_cases hex : ∃ p ∈ cats, matchesDesc (rows.getD i default).base.description p
      · obtain ⟨p, hp, hmp, hval⟩ :=
          catOfDesc_of_match cats (rows.getD i default).base.description
            "Uncategorized" hex
        left
        refine ⟨?_, p.2, ?_, hmp.2⟩
        · rw [← hres, hval]
          exact hmp.1
        · rw [← hres, hval, Prod.mk.eta]
          exact hp
      · right
        have hno : ∀ p ∈ cats,
            ¬ matchesDesc (rows.getD i default).base.description p :=
          fun p hp hm => hex ⟨p, hp, hm⟩
        have hU : catOfDesc cats (rows.getD i default).base.description
            "Uncategorized" = "Uncategorized" :=
          catOfDesc_no_match cats _ _ hno
        exact ⟨by rw [← hres, hU], hno⟩
    · intro hcase
      rcases hcase with ⟨hCne, kws, hmem, hkw⟩ | ⟨hCeq, hnone⟩
      · apply catOfDesc_all_named cats (rows.getD i default).base.description _ C
        · exact ⟨(C, kws), hmem, hCne, hkw⟩
        · intro q hq hmq
          by_contra hqne
          exact hdisj (C, kws) hmem q hq hCne hmq.1 (fun h => hqne h.symm)
            (normalizeDesc (rows.getD i default).base.description) hkw hmq.2
      · rw [hCeq]
        exact catOfDesc_no_match cats _ _ hnone
  · intro mapping rows i hi hnot
    have h1 := getD_map_crow (fun r =>
      if r.base.description ∈ mapping.map Prod.fst
      then { r with category :=
          ((mapping.find? (fun p => p.1 == r.base.description)).map
            Prod.snd).getD "Uncategorized" }
      else { r with category := "Uncategorized" }) rows i hi
    simp only [categorize_transactions_utils, h1]
    rw [if_neg hnot]
  · intro mapping rows i k C hnd hi hmem hdesc
    have h1 := getD_map_crow (fun r =>
      if r.base.description ∈ mapping.map Prod.fst
      then { r with category :=
          ((mapping.find? (fun p => p.1 == r.base.description)).map
            Prod.snd).getD "Uncategorized" }
      else { r with category := "Uncategorized" }) rows i hi
    simp only [categorize_transactions_utils, h1]
    have hk : (rows.getD i default).base.description ∈ mapping.map Prod.fst := by
      rw [hdesc]
      exact List.mem_map_of_mem Prod.fst hmem
    rw [if_pos hk]
    show ((mapping.find?
        (fun p => p.1 == (rows.getD i default).base.description)).map
        Prod.snd).getD "Uncategorized" = C
    rw [hdesc, find_mapping_eq mapping k C hnd hmem]
    rfl

/-- Witness for C2 (amended): the main categorizer classifies a normalized
exact match; the utils variant leaves the same unnormalized description
uncategorized and classifies only the raw exact match. -/
theorem claim_exact_match_iff_witness :
    (((categorize_transactions [("Food", ["STARBUCKS"])]
        [⟨⟨"2024-01-01", " Starbucks ", 3, "SGD", "s"⟩, ""⟩]).getD 0
        default).category = "Food" ↔
      (("Food" ≠ "Uncategorized" ∧ ∃ kws, ("Food", kws) ∈
          [("Food", ["STARBUCKS"])] ∧
          normalizeDesc ((([⟨⟨"2024-01-01", " Starbucks ", 3, "SGD", "s"⟩,
            ""⟩] : List CRow).getD 0 default).base.description)
            ∈ kws.map normalizeDesc)
       ∨ ("Food" = "Uncategorized" ∧
          ∀ p ∈ [("Food", ["STARBUCKS"])],
            ¬ matchesDesc ((([⟨⟨"2024-01-01", " Starbucks ", 3, "SGD", "s"⟩,
              ""⟩] : List CRow).getD 0 default).base.description) p)))
    ∧ ((categorize_transactions_utils [("STARBUCKS", "Food")]
        [⟨⟨"2024-01-01", " Starbucks ", 3, "SGD", "s"⟩, ""⟩]).getD 0
        default).category = "Uncategorized"
    ∧ ((categorize_transactions_utils [("STARBUCKS", "Food")]
        [⟨⟨"2024-01-01", "STARBUCKS", 3, "SGD", "s"⟩, ""⟩]).getD 0
        default).category = "Food" :=
  ⟨claim_exact_match_iff.1 [("Food", ["STARBUCKS"])]
      [⟨⟨"2024-01-01", " Starbucks ", 3, "SGD", "s"⟩, ""⟩] 0 "Food"
      (by decide) (by decide),
   claim_exact_match_iff.2.1 [("STARBUCKS", "Food")]
      [⟨⟨"2024-01-01", " Starbucks ", 3, "SGD", "s"⟩, ""⟩] 0
      (by decide) (by decide),
   claim_exact_match_iff.2.2 [("STARBUCKS", "Food")]
      [⟨⟨"2024-01-01", "STARBUCKS", 3, "SGD", "s"⟩, ""⟩] 0 "STARBUCKS" "Food"
      (by decide) (by decide) (by decide) rfl⟩

/-! ### Ledger reads (`load_from_db` in `main.py` and `utils.py`)

The backing store returns rows ordered by the `date` column as requested by
the query (`.order("date")` ascending in `main.py`, `.order("Date",
desc=True)` in `utils.py`); ISO date strings compare lexicographically, so
the backend order is modelled by a lexicographic character-list order. -/

/-- Lexicographic order on character lists (how the backend compares the
stored ISO date strings). -/
def lexLeb : List Char → List Char → Bool
  | [], _ => true
  | _ :: _, [] => false
  | a :: as, b :: bs => if a = b then lexLeb as bs else decide (a < b)

theorem lexLeb_total : ∀ (x y : List Char), lexLeb x y = true ∨ lexLeb y x = true := by
  intro x
  induction x with
  | nil => intro y; exact Or.inl rfl
  | cons a as ih =>
    intro y
    cases y with
    | nil => exact Or.inr rfl
    | cons b bs =>
      by_cases hab : a = b
      · subst hab
        rcases ih bs with h | h
        · left
          simp only [lexLeb]
          simpa using h
        · right
          simp only [lexLeb]
          simpa using h
      · rcases lt_or_gt_of_ne hab with h | h
        · left
          simp only [lexLeb]
          rw [if_neg hab]
          exact decide_eq_true h
        · right
          simp only [lexLeb]
          rw [if_neg (fun hh => hab hh.symm)]
          exact decide_eq_true h

theorem lexLeb_trans : ∀ (x y z : List Char), lexLeb x y = true →
    lexLeb y z = true → lexLeb x z = true := by
  intro x
  induction x with
  | nil => intro y z h1 h2; rfl
  | cons a as ih =>
    intro y z h1 h2
    cases y with
    | nil => simp [lexLeb] at h1
    | cons b bs =>
      cases z with
      | nil => simp [lexLeb] at h2
      | cons c cs =>
        simp only [lexLeb] at h1 h2 ⊢
        by_cases hab : a = b
        · rw [if_pos hab] at h1
          by_cases hbc : b = c
          · rw [if_pos hbc] at h2
            rw [if_pos (hab.trans hbc)]
            exact ih bs cs h1 h2
          · rw [if_neg hbc] at h2
            have hbc2 : b < c := of_decide_eq_true h2
            have hac2 : a < c := by rw [hab]; exact hbc2
            rw [if_neg (fun hh => hbc (hab.symm.trans hh))]
            exact decide_eq_true hac2
        · rw [if_neg hab] at h1
          have hab2 : a < b := of_decide_eq_true h1
          by_cases hbc : b = c
          · have hac2 : a < c := by rw [← hbc]; exact hab2
            rw [if_neg (ne_of_lt hac2)]
            exact decide_eq_true hac2
          · rw [if_neg hbc] at h2
            have hbc2 : b < c := of_decide_eq_true h2
            have hac2 : a < c := lt_trans hab2 hbc2
            rw [if_neg (ne_of_lt hac2)]
            exact decide_eq_true hac2

/-- Ascending date order on rows (the `main.py` query). -/
def dateLe (a b : Row) : Prop := lexLeb a.date.data b.date.data = true

/-- Descending date order on rows (the `utils.py` query). -/
def dateGe (a b : Row) : Prop := lexLeb b.date.data a.date.data = true

instance : DecidableRel dateLe := fun a b =>
  inferInstanceAs (Decidable (lexLeb a.date.data b.date.data = true))

instance : DecidableRel dateGe := fun a b =>
  inferInstanceAs (Decidable (lexLeb b.date.data a.date.data = true))

instance : IsTotal Row dateLe :=
  ⟨fun a b => lexLeb_total a.date.data b.date.data⟩

instance : IsTrans Row dateLe :=
  ⟨fun a b c h1 h2 => lexLeb_trans a.date.data b.date.data c.date.data h1 h2⟩

instance : IsTotal Row dateGe :=
  ⟨fun a b => lexLeb_total b.date.data a.date.data⟩

instance : IsTrans Row dateGe :=
  ⟨fun a b c h1 h2 => lexLeb_trans c.date.data b.date.data a.date.data h2 h1⟩

/-- A data-frame cell value: a string, a numeric amount, or a null. -/
inductive Val where
  | s : String → Val
  | q : ℚ → Val
  | na : Val
deriving DecidableEq, Repr

/-- A data frame: a column list and one association-list record per row
(a pandas frame restricted to what the loaders do with it). -/
structure Frame where
  cols : List String
  rows : List (List (String × Val))
deriving DecidableEq, Repr

/-- Cell lookup in a record; absent keys read as null (pandas `dict.get`
semantics when a frame is built from records). -/
def recGet (r : List (String × Val)) (k : String) : Val :=
  match r.find? (fun p => p.1 == k) with
  | some p => p.2
  | none => Val.na

/-- Accumulate the keys of one record in first-appearance order. -/
def addKeys (acc : List String) (r : List (String × Val)) : List String :=
  acc ++ (r.map Prod.fst).filter (fun k => decide (k ∉ acc))

/-- Column set of `pd.DataFrame(records)`: union of the record keys in
first-appearance order. -/
def unionKeys (recs : List (List (String × Val))) : List String :=
  recs.foldl addKeys []

/-- `pd.DataFrame(records)`. -/
def dataFrameOf (recs : List (List (String × Val))) : Frame :=
  ⟨unionKeys recs, recs⟩

/-- `df.rename(columns=...)`. -/
def renameFrame (f : Frame) (ren : String → String) : Frame :=
  ⟨f.cols.map ren, f.rows.map (fun r => r.map (fun p => (ren p.1, p.2)))⟩

/-- The defensive loop `for c in cols: if c not in df.columns: df[c] = pd.NA`:
synthesize each absent expected column as a null-valued column. -/
def ensureCols (f : Frame) (cols : List String) : Frame :=
  cols.foldl (fun acc c =>
    if c ∈ acc.cols then acc
    else ⟨acc.cols ++ [c], acc.rows.map (fun r => r ++ [(c, Val.na)])⟩) f

/-- Column selection/reordering `df[cols]`. -/
def selectCols (f : Frame) (cols : List String) : Frame :=
  ⟨cols, f.rows.map (fun r => cols.map (fun c => (c, recGet r c)))⟩

/-- The expected canonical columns. -/
def mainCols : List String :=
  ["Date", "Description", "Amount", "Currency", "Source"]

/-- The lower-case column names of the `main.py` select. -/
def lowCols : List String :=
  ["date", "description", "amount", "currency", "source"]

/-- The `main.py` rename map from the select's lower-case names. -/
def renameMain (k : String) : String :=
  if k = "date" then "Date"
  else if k = "description" then "Description"
  else if k = "amount" then "Amount"
  else if k = "currency" then "Currency"
  else if k = "source" then "Source"
  else k

/-- A backend response record for one stored row, lower-case keys
(`main.py` select). -/
def rowRecLower (r : Row) : List (String × Val) :=
  [("date", Val.s r.date), ("description", Val.s r.description),
   ("amount", Val.q r.amount), ("currency", Val.s r.currency),
   ("source", Val.s r.source)]

/-- A backend response record for one stored row, capitalized keys
(`utils.py` select). -/
def rowRecUpper (r : Row) : List (String × Val) :=
  [("Date", Val.s r.date), ("Description", Val.s r.description),
   ("Amount", Val.q r.amount), ("Currency", Val.s r.currency),
   ("Source", Val.s r.source)]

/-- Backend response to the `main.py` query: rows sorted by date ascending. -/
def respMain (store : List Row) : List (List (String × Val)) :=
  (List.insertionSort dateLe store).map rowRecLower

/-- Backend response to the `utils.py` query: rows sorted by date descending. -/
def respUtils (store : List Row) : List (List (String × Val)) :=
  (List.insertionSort dateGe store).map rowRecUpper

/-- The frame-building part of `load_from_db` in `main.py`: empty response
short-circuits to an empty frame with the expected columns; otherwise build,
rename, synthesize missing expected columns, and reorder. -/
def buildFrameMain (data : List (List (String × Val))) : Frame :=
  if data = [] then ⟨mainCols, []⟩
  else selectCols
    (ensureCols (renameFrame (dataFrameOf data) renameMain) mainCols) mainCols

/-- The frame-building part of `load_from_db` in `utils.py` (no rename:
the select already uses the capitalized names). -/
def buildFrameUtils (data : List (List (String × Val))) : Frame :=
  if data = [] then ⟨mainCols, []⟩
  else selectCols (ensureCols (dataFrameOf data) mainCols) mainCols

/-- `load_from_db` from `main.py`. -/
def load_from_db_main (store : List Row) : Frame :=
  buildFrameMain (respMain store)

/-- `load_from_db` from `utils.py`. -/
def load_from_db_utils (store : List Row) : Frame :=
  buildFrameUtils (respUtils store)

theorem foldl_addKeys_id (recs : List (List (String × Val))) (acc : List String)
    (h : ∀ rec ∈ recs, ∀ k ∈ rec.map Prod.fst, k ∈ acc) :
    recs.foldl addKeys acc = acc := by
  induction recs with
  | nil => rfl
  | cons r recs ih =>
    rw [List.foldl_cons]
    have hf : (r.map Prod.fst).filter (fun k => decide (k ∉ acc)) = [] := by
      apply List.filter_eq_nil_iff.mpr
      intro k hk
      simpa using h r (List.mem_cons_self r recs) k hk
    have hr : addKeys acc r = acc := by
      rw [addKeys, hf, List.append_nil]
    rw [hr]
    exact ih (fun rec hrec => h rec (List.mem_cons_of_mem r hrec))

theorem ensureCols_id (cols : List String) (f : Frame)
    (h : ∀ c ∈ cols, c ∈ f.cols) : ensureCols f cols = f := by
  induction cols with
  | nil => rfl
  | cons c0 cols ih =>
    simp only [ensureCols, List.foldl_cons]
    rw [if_pos (h c0 (List.mem_cons_self c0 cols))]
    exact ih (fun c hc => h c (List.mem_cons_of_mem c0 hc))

/-- `load_from_db` of `main.py` delivers the store sorted ascending, with the
capitalized canonical columns. -/
theorem load_main_eq (store : List Row) :
    load_from_db_main store
      = ⟨mainCols, (List.insertionSort dateLe store).map rowRecUpper⟩ := by
  rcases hs : List.insertionSort dateLe store with _ | ⟨r0, rest⟩
  · rw [load_from_db_main, respMain, hs]
    rfl
  · rw [load_from_db_main, respMain, hs]
    have hne : (r0 :: rest).map rowRecLower ≠ [] := by simp
    rw [buildFrameMain, if_neg hne]
    have hu : unionKeys ((r0 :: rest).map rowRecLower) = lowCols := by
      rw [List.map_cons, unionKeys, List.foldl_cons]
      have h0 : addKeys [] (rowRecLower r0) = lowCols := rfl
      rw [h0]
      apply foldl_addKeys_id
      intro rec hrec k hk
      obtain ⟨r, hr, rfl⟩ := List.mem_map.mp hrec
      exact hk
    rw [dataFrameOf, hu]
    have hren : renameFrame ⟨lowCols, (r0 :: rest).map rowRecLower⟩ renameMain
        = ⟨mainCols, (r0 :: rest).map rowRecUpper⟩ := by
      rw [renameFrame]
      congr 1
      rw [List.map_map]
      apply List.map_congr_left
      intro r _
      rfl
    rw [hren]
    rw [ensureCols_id mainCols _ (fun c hc => hc)]
    rw [selectCols]
    congr 1
    rw [List.map_map]
    apply List.map_congr_left
    intro r _
    rfl

/-- `load_from_db` of `utils.py` delivers the store sorted descending. -/
theorem load_utils_eq (store : List Row) :
    load_from_db_utils store
      = ⟨mainCols, (List.insertionSort dateGe store).map rowRecUpper⟩ := by
  rcases hs : List.insertionSort dateGe store with _ | ⟨r0, rest⟩
  · rw [load_from_db_utils, respUtils, hs]
    rfl
  · rw [load_from_db_utils, respUtils, hs]
    have hne : (r0 :: rest).map rowRecUpper ≠ [] := by simp
    rw [buildFrameUtils, if_neg hne]
    have hu : unionKeys ((r0 :: rest).map rowRecUpper) = mainCols := by
      rw [List.map_cons, unionKeys, List.foldl_cons]
      have h0 : addKeys [] (rowRecUpper r0) = mainCols := rfl
      rw [h0]
      apply foldl_addKeys_id
      intro rec hrec k hk
      obtain ⟨r, hr, rfl⟩ := List.mem_map.mp hrec
      exact hk
    rw [dataFrameOf, hu]
    rw [ensureCols_id mainCols _ (fun c hc => hc)]
    rw [selectCols]
    congr 1
    rw [List.map_map]
    apply List.map_congr_left
    intro r _
    rfl

theorem recGet_cons_pos (kv : String × Val) (rest : List (String × Val))
    (c : String) (hb : (kv.1 == c) = true) : recGet (kv :: rest) c = kv.2 := by
  unfold recGet
  rw [@List.find?_cons_of_pos (String × Val) (fun q => q.1 == c) kv rest hb]

theorem recGet_cons_neg (kv : String × Val) (rest : List (String × Val))
    (c : String) (hb : ¬(kv.1 == c) = true) :
    recGet (kv :: rest) c = recGet rest c := by
  unfold recGet
  rw [@List.find?_cons_of_neg (String × Val) (fun q => q.1 == c) kv rest hb]

theorem recGet_na (r : List (String × Val)) (c : String)
    (h : ∀ kv ∈ r, kv.1 = c → kv.2 = Val.na) : recGet r c = Val.na := by
  induction r with
  | nil => rfl
  | cons kv rest ih =>
    by_cases hb : (kv.1 == c) = true
    · have heq : kv.1 = c := by simpa using hb
      rw [recGet_cons_pos kv rest c hb]
      exact h kv (List.mem_cons_self kv rest) heq
    · rw [recGet_cons_neg kv rest c hb]
      exact ih (fun kv2 h2 hc => h kv2 (List.mem_cons_of_mem kv h2) hc)

theorem ensureCols_inv (cols : List String) (f : Frame) (c : String)
    (h : ∀ r ∈ f.rows, ∀ kv ∈ r, kv.1 = c → kv.2 = Val.na) :
    ∀ r ∈ (ensureCols f cols).rows, ∀ kv ∈ r, kv.1 = c → kv.2 = Val.na := by
  induction cols generalizing f with
  | nil => exact h
  | cons c0 cols ih =>
    simp only [ensureCols, List.foldl_cons]
    by_cases hc0 : c0 ∈ f.cols
    · rw [if_pos hc0]
      exact ih f h
    · rw [if_neg hc0]
      apply ih
      intro r hr kv hkv hkvc
      obtain ⟨r0, hr0, rfl⟩ := List.mem_map.mp hr
      rcases List.mem_append.mp hkv with h1 | h2
      · exact h r0 hr0 kv h1 hkvc
      · rcases List.mem_singleton.mp h2 with rfl
        rfl

theorem recGet_select (cols : List String) (r : List (String × Val)) (c : String)
    (hc : c ∈ cols) :
    recGet (cols.map (fun c2 => (c2, recGet r c2))) c = recGet r c := by
  induction cols with
  | nil => exact absurd hc (List.not_mem_nil c)
  | cons c0 cols ih =>
    by_cases hb : (c0 == c) = true
    · have heq : c0 = c := by simpa using hb
      rw [List.map_cons,
        recGet_cons_pos (c0, recGet r c0) (cols.map (fun c2 => (c2, recGet r c2))) c hb]
      rw [heq]
    · rw [List.map_cons,
        recGet_cons_neg (c0, recGet r c0) (cols.map (fun c2 => (c2, recGet r c2))) c hb]
      apply ih
      rcases List.mem_cons.mp hc with rfl | hc2
      · exact absurd (by simp) hb
      · exact hc2

/-- C6 (amended).  `main.py`'s `load_from_db` returns the stored transactions
ordered by date ascending; the `utils.py` variant orders them descending; in
both, an empty store yields an empty frame with the five expected columns,
and every expected column absent from the store's response is synthesized as
a null column rather than raising — in the main.py and the utils.py frame
builder alike. -/
theorem claim_read_all :
    (∀ store : List Row, ∃ l : List Row,
        List.Perm l store ∧ List.Sorted dateLe l ∧
        load_from_db_main store = ⟨mainCols, l.map rowRecUpper⟩)
    ∧ (∀ store : List Row, ∃ l : List Row,
        List.Perm l store ∧ List.Sorted dateGe l ∧
        load_from_db_utils store = ⟨mainCols, l.map rowRecUpper⟩)
    ∧ load_from_db_main [] = ⟨mainCols, []⟩
    ∧ load_from_db_utils [] = ⟨mainCols, []⟩
    ∧ (∀ (data : List (List (String × Val))) (c : String), c ∈ mainCols →
        (∀ rec ∈ data, ∀ kv ∈ rec, renameMain kv.1 ≠ c) →
        (buildFrameMain data).cols = mainCols
          ∧ ∀ r ∈ (buildFrameMain data).rows, recGet r c = Val.na)
    ∧ (∀ (data : List (List (String × Val))) (c : String), c ∈ mainCols →
        (∀ rec ∈ data, ∀ kv ∈ rec, kv.1 ≠ c) →
        (buildFrameUtils data).cols = mainCols
          ∧ ∀ r ∈ (buildFrameUtils data).rows, recGet r c = Val.na) := by
  refine ⟨?_, ?_, rfl, rfl, ?_, ?_⟩
  · intro store
    exact ⟨List.insertionSort dateLe store, List.perm_insertionSort dateLe store,
      List.sorted_insertionSort dateLe store, load_main_eq store⟩
  · intro store
    exact ⟨List.insertionSort dateGe store, List.perm_insertionSort dateGe store,
      List.sorted_insertionSort dateGe store, load_utils_eq store⟩
  · intro data c hc hnone
    by_cases hd : data = []
    · subst hd
      refine ⟨rfl, ?_⟩
      intro r hr
      simp [buildFrameMain] at hr
    · constructor
      · simp only [buildFrameMain, if_neg hd, selectCols]
      · intro r hr
        simp only [buildFrameMain, if_neg hd, selectCols] at hr
        obtain ⟨r2, hr2, rfl⟩ := List.mem_map.mp hr
        rw [recGet_select mainCols r2 c hc]
        apply recGet_na
        have h0 : ∀ rr ∈ (renameFrame (dataFrameOf data) renameMain).rows,
            ∀ kv ∈ rr, kv.1 = c → kv.2 = Val.na := by
          intro rr hrr kv hkv hkvc
          obtain ⟨rec, hrec, rfl⟩ := List.mem_map.mp hrr
          obtain ⟨p, hp, rfl⟩ := List.mem_map.mp hkv
          exact absurd hkvc (hnone rec hrec p hp)
        exact ensureCols_inv mainCols _ c h0 r2 hr2
  · intro data c hc hnone
    by_cases hd : data = []
    · subst hd
      refine ⟨rfl, ?_⟩
      intro r hr
      simp [buildFrameUtils] at hr
    · constructor
      · simp only [buildFrameUtils, if_neg hd, selectCols]
      · intro r hr
        simp only [buildFrameUtils, if_neg hd, selectCols] at hr
        obtain ⟨r2, hr2, rfl⟩ := List.mem_map.mp hr
        rw [recGet_select mainCols r2 c hc]
        apply recGet_na
        have h0 : ∀ rr ∈ (dataFrameOf data).rows,
            ∀ kv ∈ rr, kv.1 = c → kv.2 = Val.na := by
          intro rr hrr kv hkv hkvc
          exact absurd hkvc (hnone rr hrr kv hkv)
        exact ensureCols_inv mainCols _ c h0 r2 hr2

/-- Witness for C6 (amended): a response whose records lack the
`currency` column still yields all five columns, with null in that column,
in both loader variants. -/
theorem claim_read_all_witness :
    ((buildFrameMain [[("date", Val.s "2024-01-01")]]).cols = mainCols
      ∧ ∀ r ∈ (buildFrameMain [[("date", Val.s "2024-01-01")]]).rows,
          recGet r "Currency" = Val.na)
    ∧ ((buildFrameUtils [[("Date", Val.s "2024-01-01")]]).cols = mainCols
      ∧ ∀ r ∈ (buildFrameUtils [[("Date", Val.s "2024-01-01")]]).rows,
          recGet r "Currency" = Val.na) :=
  ⟨claim_read_all.2.2.2.2.1 [[("date", Val.s "2024-01-01")]] "Currency"
      (by decide) (by decide),
   claim_read_all.2.2.2.2.2 [[("Date", Val.s "2024-01-01")]] "Currency"
      (by decide) (by decide)⟩

/-- Counterexample to C6 as stated: the `utils.py` loader requests the rows
in descending date order, so on a two-row store the result is not ordered by
date ascending. -/
theorem claim_read_all_cex :
    load_from_db_utils [⟨"2024-01-01", "A", 1, "SGD", "s"⟩,
        ⟨"2024-02-01", "B", 2, "SGD", "s"⟩]
      = ⟨mainCols, [rowRecUpper ⟨"2024-02-01", "B", 2, "SGD", "s"⟩,
          rowRecUpper ⟨"2024-01-01", "A", 1, "SGD", "s"⟩]⟩
    ∧ ¬ List.Sorted dateLe [(⟨"2024-02-01", "B", 2, "SGD", "s"⟩ : Row),
        ⟨"2024-01-01", "A", 1, "SGD", "s"⟩] := by decide

/-! ### Recurring subscription auto-record (`pages/03_Configuration.py`) -/

/-- A recurring definition row from the `recurring` table. -/
structure RecurDef where
  id : ℕ
  day : ℕ
  description : String
  amount : ℚ
  currency : String
  source : String
deriving DecidableEq, Repr

/-- `due = recur_df.query("Day == @today_day")` followed by the candidate
rows built for today's midnight: one candidate per due definition, dated to
the passed midnight timestamp. -/
def recurCandidates (defs : List RecurDef) (d : ℕ) (midnight : String) :
    List Row :=
  (defs.filter (fun rd => decide (rd.day = d))).map
    (fun rd => ⟨midnight, rd.description, rd.amount, rd.currency, rd.source⟩)

/-- The anti-join of the candidate rows against the loaded raw table
(`merge(..., indicator=True)` keeping `left_only`). -/
def antiJoin (cands : List Row) (store : List Row) : List Row :=
  cands.filter (fun c => decide (c ∉ store))

/-- Lexicographic order on source tags (pandas `groupby` sorts group keys). -/
def strLe (a b : String) : Prop := lexLeb a.data b.data = true

instance : DecidableRel strLe := fun a b =>
  inferInstanceAs (Decidable (lexLeb a.data b.data = true))

/-- The group keys of `to_save.groupby("Source")`: distinct sources in
sorted order. -/
def sourceGroups (rows : List Row) : List String :=
  List.insertionSort strLe (rows.map Row.source).dedup

/-- The auto-record block: build candidates for today's due definitions,
anti-join them against the store, and when any survive, insert each source
group through `save_to_db`. -/
def runRecurring (store : List Row) (defs : List RecurDef) (d : ℕ)
    (midnight : String) : List Row :=
  let cands := recurCandidates defs d midnight
  let to_save := antiJoin cands store
  if to_save = [] then store
  else (sourceGroups to_save).foldl
    (fun st src =>
      (save_to_db st
        ((to_save.filter (fun r => decide (r.source = src))).map Row.toCand)
        src).1)
    store

theorem mem_foldl_insert (groups : List String) (f : String → List Cand)
    (st : List Row) (r : Row) (h : r ∈ st) :
    r ∈ groups.foldl (fun st src => (save_to_db st (f src) src).1) st := by
  induction groups generalizing st with
  | nil => exact h
  | cons g groups ih =>
    rw [List.foldl_cons]
    exact ih _ (save_to_db_mono _ _ _ _ h)

theorem foldl_insert_mem (groups : List String) (f : String → List Cand)
    (st : List Row) (c : Row) (hsrc : c.source ∈ groups)
    (hf : c.toCand ∈ f c.source) :
    c ∈ groups.foldl (fun st src => (save_to_db st (f src) src).1) st := by
  induction groups generalizing st with
  | nil => exact absurd hsrc (List.not_mem_nil _)
  | cons g groups ih =>
    rw [List.foldl_cons]
    by_cases hg : c.source = g
    · subst hg
      have h2 : c ∈ (save_to_db st (f c.source) c.source).1 :=
        save_to_db_mem st (f c.source) c.source c.toCand hf
      exact mem_foldl_insert groups f _ c h2
    · rcases List.mem_cons.mp hsrc with h1 | h2
      · exact absurd h1 hg
      · exact ih _ h2

/-- The store only grows across one auto-record run. -/
theorem runRecurring_super (store : List Row) (defs : List RecurDef) (d : ℕ)
    (midnight : String) (r : Row) (h : r ∈ store) :
    r ∈ runRecurring store defs d midnight := by
  simp only [runRecurring]
  by_cases hts : antiJoin (recurCandidates defs d midnight) store = []
  · rw [if_pos hts]
    exact h
  · rw [if_neg hts]
    exact mem_foldl_insert _ _ store r h

/-- After a run, every candidate row of that day is present in the store. -/
theorem cand_mem_run (store : List Row) (defs : List RecurDef) (d : ℕ)
    (midnight : String) (c : Row) (hc : c ∈ recurCandidates defs d midnight) :
    c ∈ runRecurring store defs d midnight := by
  by_cases hmem : c ∈ store
  · exact runRecurring_super store defs d midnight c hmem
  · have hts : c ∈ antiJoin (recurCandidates defs d midnight) store := by
      rw [antiJoin, List.mem_filter]
      exact ⟨hc, by simpa using hmem⟩
    have hne : antiJoin (recurCandidates defs d midnight) store ≠ [] := by
      intro h0
      rw [h0] at hts
      exact List.not_mem_nil c hts
    simp only [runRecurring]
    rw [if_neg hne]
    apply foldl_insert_mem
    · have h1 : c.source ∈ (antiJoin (recurCandidates defs d midnight)
          store).map Row.source := List.mem_map_of_mem Row.source hts
      have h2 : c.source ∈ ((antiJoin (recurCandidates defs d midnight)
          store).map Row.source).dedup := List.mem_dedup.mpr h1
      exact ((List.perm_insertionSort strLe _).mem_iff).mpr h2
    · apply List.mem_map_of_mem Row.toCand
      rw [List.mem_filter]
      exact ⟨hts, by simp⟩

/-- Running the auto-record block a second time on the same day is a no-op. -/
theorem runRecurring_idem (store : List Row) (defs : List RecurDef) (d : ℕ)
    (midnight : String) :
    runRecurring (runRecurring store defs d midnight) defs d midnight
      = runRecurring store defs d midnight := by
  have hall : ∀ c ∈ recurCandidates defs d midnight,
      c ∈ runRecurring store defs d midnight :=
    fun c hc => cand_mem_run store defs d midnight c hc
  have hAJ : antiJoin (recurCandidates defs d midnight)
      (runRecurring store defs d midnight) = [] := by
    apply List.filter_eq_nil_iff.mpr
    intro c hc
    simpa using hall c hc
  set S1 := runRecurring store defs d midnight with hS1
  simp only [runRecurring]
  rw [hAJ]
  simp

/-- C7.  The generator produces exactly one candidate, dated to the passed
midnight, per definition whose `Day` equals today's day-of-month (and none
otherwise), and a repeated run on the same day inserts no duplicate because
candidates are routed through the identity-key dedup insert path. -/
theorem claim_recurring :
    (∀ (rd : RecurDef) (d : ℕ) (midnight : String),
        recurCandidates [rd] d midnight
          = if rd.day = d
            then [⟨midnight, rd.description, rd.amount, rd.currency, rd.source⟩]
            else [])
    ∧ (∀ (defs : List RecurDef) (d : ℕ) (midnight : String) (c : Row),
        c ∈ recurCandidates defs d midnight → c.date = midnight)
    ∧ (∀ (defs : List RecurDef) (d : ℕ) (midnight : String),
        (recurCandidates defs d midnight).length
          = (defs.filter (fun rd => decide (rd.day = d))).length)
    ∧ (∀ (store : List Row) (defs : List RecurDef) (d : ℕ) (midnight : String),
        runRecurring (runRecurring store defs d midnight) defs d midnight
          = runRecurring store defs d midnight) := by
  refine ⟨?_, ?_, ?_, runRecurring_idem⟩
  · intro rd d midnight
    by_cases h : rd.day = d
    · simp [recurCandidates, h]
    · simp [recurCandidates, h]
  · intro defs d midnight c hc
    obtain ⟨rd, _, rfl⟩ := List.mem_map.mp hc
    rfl
  · intro defs d midnight
    exact List.length_map _ _

/-- Witness for C7 at a concrete due definition. -/
theorem claim_recurring_witness :
    recurCandidates [⟨1, 5, "Spotify", 10, "EUR", "Manual Recurring"⟩] 5
        "2025-05-05 00:00:00 UTC"
      = [⟨"2025-05-05 00:00:00 UTC", "Spotify", 10, "EUR", "Manual Recurring"⟩]
    ∧ (⟨"2025-05-05 00:00:00 UTC", "Spotify", 10, "EUR",
        "Manual Recurring"⟩ : Row).date = "2025-05-05 00:00:00 UTC" := by
  constructor
  · simpa using claim_recurring.1
      ⟨1, 5, "Spotify", 10, "EUR", "Manual Recurring"⟩ 5
      "2025-05-05 00:00:00 UTC"
  · exact claim_recurring.2.1
      [⟨1, 5, "Spotify", 10, "EUR", "Manual Recurring"⟩] 5
      "2025-05-05 00:00:00 UTC" _ (by decide)

/-! ### Date normalization (spec §4.4)

The repository sources provided do not contain the date-normalization
routine itself (only the spec describes it), so it is modelled here from
the specification's words. -/

/-- Modelled from the spec: a calendar date for the date-normalization
contract (the implementation is not among the provided sources). -/
structure SDate where
  year : ℤ
  month : ℕ
  day : ℕ
deriving DecidableEq, Repr

/-- Modelled from the spec: "the resulting date is in the future relative to
now" — strict calendar comparison, year then month then day. -/
def SDate.isBefore (a b : SDate) : Bool :=
  if a.year ≠ b.year then decide (a.year < b.year)
  else if a.month ≠ b.month then decide (a.month < b.month)
  else decide (a.day < b.day)

/-- Split a character list into whitespace-separated words. -/
def wordsAux : List Char → List Char → List (List Char)
  | [], cur => if cur = [] then [] else [cur.reverse]
  | c :: rest, cur =>
      if c.isWhitespace then
        if cur = [] then wordsAux rest []
        else cur.reverse :: wordsAux rest []
      else wordsAux rest (c :: cur)

/-- Decimal digit value of a character, if any. -/
def digitVal (c : Char) : Option ℕ :=
  if c.isDigit then some (c.toNat - 48) else none

/-- Parse a decimal numeral from a character list. -/
def natOfDigits : List Char → Option ℕ
  | [] => none
  | l => l.foldl
      (fun acc c =>
        match acc, digitVal c with
        | some n, some d => some (n * 10 + d)
        | _, _ => none)
      (some 0)

/-- Month-abbreviation table for the statement date shape ("19 APR"). -/
def monthAbbrevs : List (List Char × ℕ) :=
  [(['J','A','N'], 1), (['F','E','B'], 2), (['M','A','R'], 3),
   (['A','P','R'], 4), (['M','A','Y'], 5), (['J','U','N'], 6),
   (['J','U','L'], 7), (['A','U','G'], 8), (['S','E','P'], 9),
   (['O','C','T'], 10), (['N','O','V'], 11), (['D','E','C'], 12)]

/-- Modelled from the spec: the "day month" (no year) statement shape — a
day numeral followed by a month abbreviation, case-insensitively. -/
def parseDayMonth (tok : String) : Option (ℕ × ℕ) :=
  match wordsAux tok.data [] with
  | [dw, mw] =>
      match natOfDigits dw,
        monthAbbrevs.find? (fun p => decide (p.1 = mw.map Char.toUpper)) with
      | some d, some pm => some (d, pm.2)
      | _, _ => none
  | _ => none

/-- Modelled from the spec: date normalization — attempt the "day month"
shape against the current year, roll back one year when the result would be
strictly in the future relative to now, otherwise fall back to a
general-purpose parser; unparseable input yields an explicit null. -/
def normalize_date (fallback : String → Option SDate) (now : SDate)
    (tok : String) : Option SDate :=
  match parseDayMonth tok with
  | some (d, m) =>
      if SDate.isBefore now ⟨now.year, m, d⟩
      then some ⟨now.year - 1, m, d⟩
      else some ⟨now.year, m, d⟩
  | none => fallback tok

/-- C9.  "19 APR" read in January 2025 yields 2024-04-19 (rolled back one
year because the same-year reading would be in the future) and read in May
2025 yields 2025-04-19; when the "day month" shape fails the general-purpose
fallback decides, and unparseable input yields null rather than a default
date. -/
theorem claim_date_normalization :
    (∀ (fb : String → Option SDate) (k : ℕ),
        normalize_date fb ⟨2025, 1, k⟩ "19 APR" = some ⟨2024, 4, 19⟩)
    ∧ (∀ (fb : String → Option SDate) (k : ℕ),
        normalize_date fb ⟨2025, 5, k⟩ "19 APR" = some ⟨2025, 4, 19⟩)
    ∧ (∀ (fb : String → Option SDate) (now : SDate) (tok : String),
        parseDayMonth tok = none → normalize_date fb now tok = fb tok)
    ∧ (∀ (now : SDate) (tok : String), parseDayMonth tok = none →
        normalize_date (fun _ => none) now tok = none)
    ∧ (∀ (fb : String → Option SDate) (now : SDate) (tok : String) (d m : ℕ),
        parseDayMonth tok = some (d, m) →
        normalize_date fb now tok
          = if SDate.isBefore now ⟨now.year, m, d⟩
            then some ⟨now.year - 1, m, d⟩
            else some ⟨now.year, m, d⟩) := by
  refine ⟨?_, ?_, ?_, ?_, ?_⟩
  · intro fb k
    rfl
  · intro fb k
    rfl
  · intro fb now tok h
    simp only [normalize_date, h]
  · intro now tok h
    simp only [normalize_date, h]
  · intro fb now tok d m h
    simp only [normalize_date, h]

/-- Witness for C9: a token without the "day month" shape falls through the
null fallback. -/
theorem claim_date_normalization_witness :
    normalize_date (fun _ => none) ⟨2025, 1, 15⟩ "garbage" = none :=
  claim_date_normalization.2.2.2.1 ⟨2025, 1, 15⟩ "garbage" (by decide)
